import Mathlib

/-!
Verification of the git-diff sidebar extension's core logic
(`src/gitService.ts`, `src/gitDiffProvider.ts`, branch-picker `buildItems`).

The TypeScript string operations are embedded over `List Char`:
`String.prototype.split('\n')`, `trim()`, the regex-based stripping in
`extractBranchName`, and JavaScript `Set` insertion-order deduplication are
all translated into structurally recursive Lean functions so that every
definition is executable by the kernel.
-/

/-- Models the JS regex class `\s` for the whitespace characters that can
occur in captured process output (space, tab, carriage return, newline). -/
def wsChar (c : Char) : Bool :=
  c = ' ' || c = '\t' || c = '\r' || c = '\n'

/-- The tree-drawing glyphs stripped by `extractBranchName`'s first regex
`^[\s│├└┏┻━■□─┃]+` in `gitService.ts`. -/
def treeGlyph (c : Char) : Bool :=
  c = '│' || c = '├' || c = '└' || c = '┏' || c = '┻' ||
  c = '━' || c = '■' || c = '□' || c = '─' || c = '┃'

/-- JS `s.split('\n')` on the character list: splitting `""` gives `[""]`,
a trailing newline yields a trailing empty piece. -/
def splitNl : List Char → List (List Char)
  | [] => [[]]
  | c :: cs =>
    if c = '\n' then [] :: splitNl cs
    else
      match splitNl cs with
      | [] => [[c]]
      | l :: ls => (c :: l) :: ls

/-- JS `String.prototype.trim()`: drop whitespace from both ends. -/
def trimChars (cs : List Char) : List Char :=
  ((cs.dropWhile wsChar).reverse.dropWhile wsChar).reverse

/-- The Line Normalizer used by `getCommittedChanges` / `getUncommittedChanges`:
`stdout.split('\n').map(l => l.trim()).filter(l => l.length > 0)`. -/
def normalizeLines (s : String) : List String :=
  ((((splitNl s.data).map trimChars).filter (fun cs => !cs.isEmpty)).map String.mk)

/-- The quote stripping `replace(/^"|"$/g, '')` applied after `trim()` by the
branch-listing commands: drop one leading and one trailing double quote. -/
def stripQuotes (cs : List Char) : List Char :=
  let a := match cs with
    | '"' :: r => r
    | _ => cs
  match a.reverse with
  | '"' :: r => r.reverse
  | _ => a

/-- The normalizer used by `getRecentBranches` / `filterBranches` /
`getRegularBranches`:
`stdout.split('\n').map(l => l.trim().replace(/^"|"$/g, '')).filter(l => l.length > 0)`. -/
def normalizeQuoted (s : String) : List String :=
  ((((splitNl s.data).map (fun cs => stripQuotes (trimChars cs))).filter
      (fun cs => !cs.isEmpty)).map String.mk)

/-- Worker for JS `new Set(list)` iteration: `seen` is the set content so far;
an element already seen is skipped, otherwise it is kept and recorded. -/
def jsSetGo (seen : List String) : List String → List String
  | [] => []
  | x :: xs => if x ∈ seen then jsSetGo seen xs else x :: jsSetGo (x :: seen) xs

/-- JS `[...new Set(list)]`: deduplication keeping the first occurrence of
each element, preserving insertion order. -/
def jsSetToList (l : List String) : List String :=
  jsSetGo [] l

/-- Specification-side description of first-occurrence deduplication: keep the
head, then keep the first occurrences of the rest with the head removed. -/
def keepFirst : List String → List String
  | [] => []
  | x :: xs => x :: keepFirst (xs.filter (fun y => y ≠ x))
termination_by l => l.length
decreasing_by
  simp only [List.length_cons]
  exact Nat.lt_succ_of_le (List.length_filter_le _ xs)

/-- `GitService.getCommittedChanges` (`gitService.ts:84-94`): the raw output of
`git diff --name-only base...HEAD` is normalized; a failed command (`none`)
is caught and yields `[]`. -/
def getCommittedChanges (raw : Option String) : List String :=
  match raw with
  | some s => normalizeLines s
  | none => []

/-- `GitService.getUncommittedChanges` (`gitService.ts:99-113`): the three raw
outputs of `git diff --name-only` (unstaged), `git diff --name-only --cached`
(staged) and `git ls-files --others --exclude-standard` (untracked) are
normalized and concatenated staged-first, then deduplicated through a JS
`Set`.  The three calls sit inside a single `try` joined by `Promise.all`,
so if ANY of them fails (`none`) the `catch` returns `[]`. -/
def getUncommittedChanges (unstagedRaw stagedRaw untrackedRaw : Option String) :
    List String :=
  match unstagedRaw, stagedRaw, untrackedRaw with
  | some u, some s, some t =>
      jsSetToList (normalizeLines s ++ normalizeLines u ++ normalizeLines t)
  | _, _, _ => []

/-- `GitDiffProvider.getAllChangesItems` (`gitDiffProvider.ts:138-149`): the
path list behind the "All Changes" group — committed then uncommitted,
deduplicated through a JS `Set`. -/
def getAllChangesItems (committedRaw unstagedRaw stagedRaw untrackedRaw :
    Option String) : List String :=
  jsSetToList (getCommittedChanges committedRaw ++
    getUncommittedChanges unstagedRaw stagedRaw untrackedRaw)

/-- The regex `\s*◀\s*$` of `extractBranchName`: strip one trailing current
marker together with the whitespace around it; when no marker terminates the
(whitespace-stripped) line, the line is unchanged. -/
def stripMarker (cs : List Char) : List Char :=
  match cs.reverse.dropWhile wsChar with
  | '◀' :: rest => (rest.dropWhile wsChar).reverse
  | _ => cs

/-- One attempt of the global regex `\s*\(#\d+\)` at the current scan
position: greedy whitespace, then a `(#<digits>)` group; returns the suffix
after the match. -/
def tryPR (cs : List Char) : Option (List Char) :=
  match cs.dropWhile wsChar with
  | '(' :: '#' :: r2 =>
    let ds := r2.takeWhile Char.isDigit
    if ds.isEmpty then none
    else
      match r2.drop ds.length with
      | ')' :: r3 => some r3
      | _ => none
  | _ => none

/-- One attempt of the global regex `\s*\([^)]+\)` at the current scan
position: greedy whitespace, then a parenthesized group with a non-empty
body free of `)`. -/
def tryAnnot (cs : List Char) : Option (List Char) :=
  match cs.dropWhile wsChar with
  | '(' :: r2 =>
    let body := r2.takeWhile (fun c => c ≠ ')')
    if body.isEmpty then none
    else
      match r2.drop body.length with
      | ')' :: r3 => some r3
      | _ => none
  | _ => none

/-- Fueled scan of JS `replace(/\s*\(#\d+\)/g, '')`: at each position either
a match is removed and scanning resumes after it, or one character is kept.
The fuel (always instantiated with the input length, which suffices because
every step consumes at least one character) keeps the recursion structural. -/
def stripPRGo : Nat → List Char → List Char
  | 0, l => l
  | _ + 1, [] => []
  | n + 1, c :: cs =>
    match tryPR (c :: cs) with
    | some rest => stripPRGo n rest
    | none => c :: stripPRGo n cs

/-- JS `replace(/\s*\(#\d+\)/g, '')` — remove every pull-request reference. -/
def stripPRRefs (l : List Char) : List Char :=
  stripPRGo l.length l

/-- Fueled scan of JS `replace(/\s*\([^)]+\)/g, '')`. -/
def stripAnnotGo : Nat → List Char → List Char
  | 0, l => l
  | _ + 1, [] => []
  | n + 1, c :: cs =>
    match tryAnnot (c :: cs) with
    | some rest => stripAnnotGo n rest
    | none => c :: stripAnnotGo n cs

/-- JS `replace(/\s*\([^)]+\)/g, '')` — remove every remaining parenthesized
status group ("needs restack" and the like). -/
def stripAnnots (l : List Char) : List Char :=
  stripAnnotGo l.length l

/-- `GitService.extractBranchName` (`gitService.ts:56-64`): strip the leading
tree-glyph/whitespace run, a trailing current marker, all PR references, all
remaining parenthesized groups, trim, and return `none` when nothing is
left. -/
def extractBranchName (line : String) : Option String :=
  let cleaned :=
    trimChars (stripAnnots (stripPRRefs (stripMarker
      (line.data.dropWhile (fun c => wsChar c || treeGlyph c)))))
  if cleaned.isEmpty then none else some (String.mk cleaned)

/-- The line filter shared by `getGitSpiceParentBranches` and
`getGitSpiceBranches`:
`output.split('\n').filter(l => l.length > 0 && !l.startsWith('INF'))`. -/
def stackLines (out : String) : List String :=
  ((splitNl out.data).map String.mk).filter
    (fun l => !l.data.isEmpty && !(l.data.take 3 == ['I', 'N', 'F']))

/-- `line.includes('◀')` — does the line bear the current-branch marker? -/
def containsMarker (l : String) : Bool :=
  l.data.contains '◀'

/-- The accumulation loop of `getGitSpiceParentBranches` (`gitService.ts:134-143`):
a marker line sets `foundCurrent` and is skipped (`continue`); after that,
every successfully extracted name is appended. -/
def parentsGo (found : Bool) : List String → List String
  | [] => []
  | l :: ls =>
    if containsMarker l then parentsGo true ls
    else if found then
      match extractBranchName l with
      | some b => b :: parentsGo found ls
      | none => parentsGo found ls
    else parentsGo found ls

/-- `GitService.getGitSpiceParentBranches` (`gitService.ts:126-147`): `none`
models a failed `gs ls` (`runGitSpice` returned `null`); the JS guard
`if (!output)` also treats the empty string as unusable. -/
def getGitSpiceParentBranches (output : Option String) : List String :=
  match output with
  | none => []
  | some out => if out.data.isEmpty then [] else parentsGo false (stackLines out)

/-- Specification-side boundary (README/spec wording): the lines strictly
after the first line bearing the current marker; `[]` if no line bears it. -/
def afterMarker : List String → List String
  | [] => []
  | l :: ls => if containsMarker l then ls else afterMarker ls

/-- `GitService.getRegularBranches` (`gitService.ts:197-207`): normalize the
`git branch --format="%(refname:short)"` output; on command failure return
the hardcoded `['main']`. -/
def getRegularBranches (raw : Option String) : List String :=
  match raw with
  | some s => normalizeQuoted s
  | none => ["main"]

/-- `GitService.isInGitSpiceStack` (`gitService.ts:118-121`):
`output !== null && output.includes('◀')`. -/
def isInGitSpiceStack (gsOut : Option String) : Bool :=
  match gsOut with
  | some o => containsMarker o
  | none => false

/-- `GitService.getGitSpiceBranches` (`gitService.ts:185-192`): on unusable
`gs ls` output (`null` from `runGitSpice`, or the falsy empty string) fall
back to `getRegularBranches`; otherwise extract and deduplicate the branch
names of the kept lines. -/
def getGitSpiceBranches (gsOut : Option String) (branchRaw : Option String) :
    List String :=
  match gsOut with
  | none => getRegularBranches branchRaw
  | some o =>
    if o.data.isEmpty then getRegularBranches branchRaw
    else jsSetToList ((stackLines o).filterMap extractBranchName)

/-- `GitService.getRecentBranches` (`gitService.ts:152-163`): normalize the
sorted branch listing and keep the first `limit` entries; on failure return
`['main']`. -/
def getRecentBranches (raw : Option String) (limit : Nat) : List String :=
  match raw with
  | some s => (normalizeQuoted s).take limit
  | none => ["main"]

/-- `GitService.filterBranches` (`gitService.ts:168-179`): normalize the
`git branch --list "*query*"` output and keep the first `limit` entries; on
failure return `[]`. -/
def filterBranches (raw : Option String) (limit : Nat) : List String :=
  match raw with
  | some s => (normalizeQuoted s).take limit
  | none => []

/-- The unfiltered path of `buildItems` in the base-branch QuickPick
(`extension.ts`): stack ancestors (when the repo is in a git-spice stack)
prefixed with the pancake marker, followed by the recent branches minus
their first entry (the current git branch) and minus the stack names,
capped at ten.  Items are modelled by their labels. -/
def buildUnfiltered (gsOut : Option String) (recentRaw : Option String) :
    List String :=
  let stackBranches :=
    if isInGitSpiceStack gsOut then getGitSpiceParentBranches gsOut else []
  let stackItems := stackBranches.map (fun b => "🥞 " ++ b)
  let filteredRecent :=
    ((((getRecentBranches recentRaw 11).drop 1).filter
      (fun b => decide (b ∉ stackBranches))).take 10)
  stackItems ++ filteredRecent

/-- `buildItems` of the base-branch QuickPick: with a non-empty filter query
only the filtered listing is shown; otherwise the unfiltered presentation.
The raw outputs of the external commands are passed in as inputs. -/
def buildItems (filterQuery : Option String) (filterRaw : Option String)
    (gsOut : Option String) (recentRaw : Option String) : List String :=
  match filterQuery with
  | some q =>
    if !q.data.isEmpty then filterBranches filterRaw 10
    else buildUnfiltered gsOut recentRaw
  | none => buildUnfiltered gsOut recentRaw

/-- The four external change-detection queries of the aggregator. -/
inductive GQuery where
  | committed
  | unstaged
  | staged
  | untracked
deriving DecidableEq

/-- Dispatch (the `execAsync` call starts the subprocess) and join (its
result is awaited) events of one query. -/
inductive QEv where
  | dispatch (q : GQuery)
  | join (q : GQuery)
deriving DecidableEq

/-- `true` exactly on dispatch events. -/
def QEv.isDispatch : QEv → Bool
  | .dispatch _ => true
  | .join _ => false

/-- `true` exactly on join events. -/
def QEv.isJoin : QEv → Bool
  | .dispatch _ => false
  | .join _ => true

/-- Event trace of `getUncommittedChanges` (`gitService.ts:101-105`): the
three `execAsync` calls all start while the array literal passed to
`Promise.all` is evaluated — in source order unstaged, staged, untracked —
and only then does the single `await` join all three completions. -/
def uncommittedTrace : List QEv :=
  [.dispatch .unstaged, .dispatch .staged, .dispatch .untracked,
   .join .unstaged, .join .staged, .join .untracked]

/-- Event trace of `getAllChangesItems` (`gitDiffProvider.ts:138-149`):
`await this.gitService.getCommittedChanges(..)` dispatches and fully awaits
the committed-diff query before `getUncommittedChanges()` is even called. -/
def allChangesTrace : List QEv :=
  [.dispatch .committed, .join .committed] ++ uncommittedTrace

/-- The concurrency discipline claimed for the aggregator: in the trace,
every dispatch event precedes every join event. -/
def allDispatchedBeforeAnyJoin (tr : List QEv) : Prop :=
  ∀ i < tr.length, ∀ j < tr.length,
    (tr.getD i (.dispatch .committed)).isDispatch = true →
    (tr.getD j (.dispatch .committed)).isJoin = true → i < j

instance (tr : List QEv) : Decidable (allDispatchedBeforeAnyJoin tr) := by
  unfold allDispatchedBeforeAnyJoin
  infer_instance

/-- Does a match of the regex `\([^)]+\)` start at the head of the list:
an opening parenthesis, a non-empty run of non-`)` characters, then a `)`. -/
def hasAnnotAt : List Char → Bool
  | [] => false
  | c :: rest =>
    c = '(' && !(rest.takeWhile (fun x => x ≠ ')')).isEmpty &&
      !(rest.drop (rest.takeWhile (fun x => x ≠ ')')).length).isEmpty

/-- Does the list contain a substring matching `\([^)]+\)` anywhere. -/
def hasAnnot : List Char → Bool
  | [] => false
  | c :: cs => hasAnnotAt (c :: cs) || hasAnnot cs

/-- Does a match of the regex `\(#\d+\)` start at the head of the list. -/
def hasPRAt : List Char → Bool
  | '(' :: '#' :: r2 =>
    !(r2.takeWhile Char.isDigit).isEmpty &&
      ((r2.drop (r2.takeWhile Char.isDigit).length).head? == some ')')
  | _ => false

/-- Does the list contain a substring matching `\(#\d+\)` anywhere. -/
def hasPR : List Char → Bool
  | [] => false
  | c :: cs => hasPRAt (c :: cs) || hasPR cs

/-! ### JS `Set` deduplication -/

theorem mem_jsSetGo (l : List String) : ∀ (seen : List String) (p : String),
    p ∈ jsSetGo seen l ↔ p ∈ l ∧ p ∉ seen := by
  induction l with
  | nil => intro seen p; simp [jsSetGo]
  | cons x xs ih =>
    intro seen p
    rw [jsSetGo]
    by_cases hx : x ∈ seen
    · rw [if_pos hx, ih]
      by_cases hpx : p = x
      · subst hpx; simp [hx]
      · simp [List.mem_cons, hpx]
    · rw [if_neg hx]
      by_cases hpx : p = x
      · subst hpx; simp [List.mem_cons, hx]
      · simp only [List.mem_cons, hpx, false_or, ih, not_or]

theorem nodup_jsSetGo (l : List String) : ∀ seen, (jsSetGo seen l).Nodup := by
  induction l with
  | nil => intro seen; simp [jsSetGo]
  | cons x xs ih =>
    intro seen
    rw [jsSetGo]
    split
    · exact ih seen
    · refine List.nodup_cons.mpr ⟨?_, ih _⟩
      intro hmem
      exact ((mem_jsSetGo xs _ x).mp hmem).2 (List.mem_cons_self ..)

theorem jsSetGo_eq_keepFirst (l : List String) : ∀ seen,
    jsSetGo seen l = keepFirst (l.filter (fun y => decide (y ∉ seen))) := by
  induction l with
  | nil => intro seen; simp [jsSetGo, keepFirst]
  | cons x xs ih =>
    intro seen
    rw [jsSetGo, List.filter_cons]
    by_cases hx : x ∈ seen
    · rw [if_pos hx, if_neg (by simp [hx]), ih]
    · rw [if_neg hx, if_pos (by simp [hx]), keepFirst, ih (x :: seen)]
      congr 1
      rw [List.filter_filter]
      congr 1
      refine (List.filter_congr ?_)
      intro a _
      by_cases hax : a = x
      · subst hax; simp
      · simp [List.mem_cons, hax]

theorem mem_jsSetToList (l : List String) (p : String) :
    p ∈ jsSetToList l ↔ p ∈ l := by
  rw [jsSetToList, mem_jsSetGo]
  simp

theorem nodup_jsSetToList (l : List String) : (jsSetToList l).Nodup :=
  nodup_jsSetGo l []

theorem jsSetToList_eq_keepFirst (l : List String) : jsSetToList l = keepFirst l := by
  rw [jsSetToList, jsSetGo_eq_keepFirst]
  congr 1
  refine List.filter_eq_self.mpr ?_
  intro a _
  simp

/-! ### Line Normalizer -/

theorem dropWhile_head?_not (p : Char → Bool) : ∀ (l : List Char) (c : Char) (rest : List Char),
    l.dropWhile p = c :: rest → p c = false := by
  intro l
  induction l with
  | nil => intro c rest h; simp [List.dropWhile] at h
  | cons a as ih =>
    intro c rest h
    rw [List.dropWhile_cons] at h
    by_cases ha : p a = true
    · rw [if_pos ha] at h; exact ih _ _ h
    · rw [if_neg ha] at h
      injection h with h1 _
      subst h1
      exact Bool.eq_false_iff.mpr ha

theorem trimChars_getLast?_not_ws (cs : List Char) (c : Char)
    (h : (trimChars cs).getLast? = some c) : wsChar c = false := by
  unfold trimChars at h
  rw [List.getLast?_reverse] at h
  rcases hB : ((cs.dropWhile wsChar).reverse.dropWhile wsChar) with _ | ⟨d, t⟩
  · rw [hB] at h; simp at h
  · rw [hB] at h
    simp only [List.head?_cons, Option.some.injEq] at h
    subst h
    exact dropWhile_head?_not wsChar _ _ _ hB

theorem trimChars_head?_not_ws (cs : List Char) (c : Char)
    (h : (trimChars cs).head? = some c) : wsChar c = false := by
  unfold trimChars at h
  rcases hR : ((cs.dropWhile wsChar).reverse.dropWhile wsChar).reverse with _ | ⟨e, u⟩
  · rw [hR] at h; simp at h
  · rw [hR] at h
    simp only [List.head?_cons, Option.some.injEq] at h
    subst h
    have hs : ((cs.dropWhile wsChar).reverse.dropWhile wsChar) <:+ (cs.dropWhile wsChar).reverse :=
      List.dropWhile_suffix wsChar
    have hp : ((cs.dropWhile wsChar).reverse.dropWhile wsChar).reverse <+:
        (cs.dropWhile wsChar).reverse.reverse := List.reverse_prefix.mpr hs
    rw [List.reverse_reverse, hR] at hp
    obtain ⟨tail, htail⟩ := hp
    refine dropWhile_head?_not wsChar cs e (u ++ tail) ?_
    rw [← htail]
    rfl

theorem mem_normalizeLines (s : String) (p : String) (h : p ∈ normalizeLines s) :
    p.data ≠ [] ∧ ∃ cs, p.data = trimChars cs := by
  unfold normalizeLines at h
  obtain ⟨cs, hcs, hmk⟩ := List.mem_map.mp h
  obtain ⟨hcs1, hcs2⟩ := List.mem_filter.mp hcs
  obtain ⟨cs0, _, htrim⟩ := List.mem_map.mp hcs1
  have hdata : p.data = cs := by rw [← hmk]
  constructor
  · rw [hdata]; simpa using hcs2
  · exact ⟨cs0, by rw [hdata, htrim]⟩

/-! ### Claims C1, C2, C10 — the Change Set Aggregator -/

/-- C1: for all raw outputs of the staged, unstaged and untracked queries,
`getUncommittedChanges` is exactly the set union of the three normalized path
lists (each path once), and `getAllChangesItems` is exactly the union of the
committed and uncommitted path sets, with nothing outside that union. -/
theorem c1_change_sets_are_unions (u s t : String)
    (craw uraw sraw traw : Option String) (p : String) :
    (p ∈ getUncommittedChanges (some u) (some s) (some t) ↔
      p ∈ normalizeLines s ∨ p ∈ normalizeLines u ∨ p ∈ normalizeLines t)
    ∧ (getUncommittedChanges (some u) (some s) (some t)).Nodup
    ∧ (p ∈ getAllChangesItems craw uraw sraw traw ↔
      p ∈ getCommittedChanges craw ∨ p ∈ getUncommittedChanges uraw sraw traw)
    ∧ (getAllChangesItems craw uraw sraw traw).Nodup := by
  refine ⟨?_, ?_, ?_, ?_⟩
  · rw [getUncommittedChanges, mem_jsSetToList]
    simp [List.mem_append, or_assoc]
  · exact nodup_jsSetToList _
  · rw [getAllChangesItems, mem_jsSetToList]
    simp [List.mem_append]
  · exact nodup_jsSetToList _

/-- C2 counterexample: when exactly one of the three uncommitted queries
fails (here: staged fails, unstaged succeeds with `a.ts`, untracked succeeds
empty), the claim requires `a.ts` to still appear, but the shared
`try`/`Promise.all` in `getUncommittedChanges` catches the single failure
and returns the empty list. -/
theorem c2_isolation_counterexample :
    getUncommittedChanges (some "a.ts\n") none (some "") = []
    ∧ "a.ts" ∈ normalizeLines "a.ts\n" := by
  exact ⟨rfl, by decide⟩

/-- C2 amended: a failure of ANY of the three uncommitted queries empties the
whole uncommitted set (the three share one `try`); a failing committed-diff
query yields an empty committed set while the uncommitted aggregation and
the all-changes union are unaffected. -/
theorem c2_failure_handling (a b c : Option String) :
    ((a = none ∨ b = none ∨ c = none) → getUncommittedChanges a b c = [])
    ∧ getCommittedChanges none = []
    ∧ (∀ p, p ∈ getAllChangesItems none a b c ↔ p ∈ getUncommittedChanges a b c) := by
  refine ⟨?_, rfl, ?_⟩
  · intro h
    rcases h with rfl | rfl | rfl
    · cases b <;> cases c <;> rfl
    · cases a <;> cases c <;> rfl
    · cases a <;> cases b <;> rfl
  · intro p
    rw [getAllChangesItems, mem_jsSetToList]
    simp [getCommittedChanges]

theorem c2_failure_handling_witness :
    getUncommittedChanges none (some "b.ts\n") (some "c.ts\n") = []
    ∧ getCommittedChanges none = []
    ∧ ("x.ts" ∈ getAllChangesItems none none (some "b.ts\n") (some "c.ts\n") ↔
      "x.ts" ∈ getUncommittedChanges none (some "b.ts\n") (some "c.ts\n")) :=
  ⟨(c2_failure_handling none (some "b.ts\n") (some "c.ts\n")).1 (Or.inl rfl),
    (c2_failure_handling none (some "b.ts\n") (some "c.ts\n")).2.1,
    (c2_failure_handling none (some "b.ts\n") (some "c.ts\n")).2.2 "x.ts"⟩

/-- C10: the uncommitted list keeps the first occurrence of each path, in
staged-unstaged-untracked order, contains no duplicates, and every element
is non-empty with no leading or trailing whitespace. -/
theorem c10_uncommitted_list_invariants (u s t : String) :
    getUncommittedChanges (some u) (some s) (some t) =
      keepFirst (normalizeLines s ++ normalizeLines u ++ normalizeLines t)
    ∧ (getUncommittedChanges (some u) (some s) (some t)).Nodup
    ∧ (∀ p ∈ getUncommittedChanges (some u) (some s) (some t),
        p ≠ ""
        ∧ (∀ c, p.data.head? = some c → wsChar c = false)
        ∧ (∀ c, p.data.getLast? = some c → wsChar c = false)) := by
  refine ⟨jsSetToList_eq_keepFirst _, nodup_jsSetToList _, ?_⟩
  intro p hp
  rw [getUncommittedChanges, mem_jsSetToList] at hp
  have hsrc : p ∈ normalizeLines s ∨ p ∈ normalizeLines u ∨ p ∈ normalizeLines t := by
    simpa [List.mem_append, or_assoc] using hp
  have hnorm : p.data ≠ [] ∧ ∃ cs, p.data = trimChars cs := by
    rcases hsrc with h | h | h <;> exact mem_normalizeLines _ _ h
  obtain ⟨hne, cs, hcs⟩ := hnorm
  refine ⟨?_, ?_, ?_⟩
  · intro hemp; subst hemp; exact hne rfl
  · intro c hc; exact trimChars_head?_not_ws cs c (by rw [← hcs]; exact hc)
  · intro c hc; exact trimChars_getLast?_not_ws cs c (by rw [← hcs]; exact hc)

/-! ### Claims C3, C4, C9 — the decorated-text Stack Walker -/

theorem parentsGo_true_skips_markers : ∀ ls : List String,
    parentsGo true ls =
      (ls.filter (fun l => !containsMarker l)).filterMap extractBranchName := by
  intro ls
  induction ls with
  | nil => rfl
  | cons l ls ih =>
    by_cases hl : containsMarker l = true
    · rw [parentsGo, if_pos hl, List.filter_cons, if_neg (by simp [hl]), ih]
    · rw [parentsGo, if_neg hl, if_pos rfl, List.filter_cons,
        if_pos (by simp [Bool.eq_false_iff.mpr hl]), List.filterMap_cons]
      cases hext : extractBranchName l with
      | none => simpa using ih
      | some b => simpa using ih

theorem parentsGo_false_no_marker : ∀ ls : List String,
    (∀ l ∈ ls, containsMarker l = false) → parentsGo false ls = [] := by
  intro ls
  induction ls with
  | nil => intro _; rfl
  | cons l ls ih =>
    intro h
    have hl : containsMarker l = false := h l (List.mem_cons_self ..)
    rw [parentsGo, if_neg (by simp [hl]), if_neg (by simp)]
    exact ih (fun x hx => h x (List.mem_cons_of_mem _ hx))

theorem parentsGo_false_eq_post_marker : ∀ ls : List String,
    parentsGo false ls =
      ((afterMarker ls).filter (fun l => !containsMarker l)).filterMap
        extractBranchName := by
  intro ls
  induction ls with
  | nil => rfl
  | cons l ls ih =>
    by_cases hl : containsMarker l = true
    · rw [parentsGo, if_pos hl, afterMarker, if_pos hl]
      exact parentsGo_true_skips_markers ls
    · rw [parentsGo, if_neg hl, if_neg (by simp), afterMarker, if_neg hl]
      exact ih

theorem parentsGo_length_le : ∀ (ls : List String) (found : Bool),
    (parentsGo found ls).length ≤ ls.length := by
  intro ls
  induction ls with
  | nil => intro found; simp [parentsGo]
  | cons l ls ih =>
    intro found
    rw [parentsGo]
    by_cases h1 : containsMarker l = true
    · rw [if_pos h1]
      exact Nat.le_succ_of_le (ih true)
    · rw [if_neg h1]
      cases found with
      | false => simpa using Nat.le_succ_of_le (ih false)
      | true =>
        rw [if_pos rfl]
        cases hext : extractBranchName l with
        | none => exact Nat.le_succ_of_le (ih true)
        | some b => simpa using ih true

theorem stackLines_of_empty (out : String) (h : out.data.isEmpty = true) :
    stackLines out = [] := by
  have hnil : out.data = [] := by simpa using h
  unfold stackLines
  rw [hnil]
  rfl

/-- C3 counterexample: on an output with TWO marker lines the loop's
`continue` skips the second marker line entirely, so its name is never
extracted — the code returns `["main"]`, while the claim's description
(names successfully extracted from all lines strictly after the first
marker line) yields `["feat-b", "main"]`. -/
theorem c3_post_marker_counterexample :
    getGitSpiceParentBranches (some "feat-a ◀\nfeat-b ◀\nmain") = ["main"]
    ∧ (afterMarker (stackLines "feat-a ◀\nfeat-b ◀\nmain")).filterMap
        extractBranchName = ["feat-b", "main"]
    ∧ getGitSpiceParentBranches (some "feat-a ◀\nfeat-b ◀\nmain") ≠
        (afterMarker (stackLines "feat-a ◀\nfeat-b ◀\nmain")).filterMap
          extractBranchName :=
  ⟨by decide, by decide, by decide⟩

/-- C3 amended: for every output, the ancestor list consists of exactly the
names successfully extracted from the NON-marker lines strictly after the
first line bearing the current-marker glyph, in emission order — every
marker-bearing line is skipped, never extracted — and the list is empty
when no line bears the marker. -/
theorem c3_ancestors_skip_marker_lines (out : String) :
    getGitSpiceParentBranches (some out) =
      ((afterMarker (stackLines out)).filter (fun l => !containsMarker l)).filterMap
        extractBranchName
    ∧ ((∀ l ∈ stackLines out, containsMarker l = false) →
        getGitSpiceParentBranches (some out) = []) := by
  constructor
  · rw [getGitSpiceParentBranches]
    by_cases hemp : out.data.isEmpty = true
    · rw [if_pos hemp, stackLines_of_empty out hemp]
      rfl
    · rw [if_neg hemp]
      exact parentsGo_false_eq_post_marker _
  · intro hnone
    rw [getGitSpiceParentBranches]
    by_cases hemp : out.data.isEmpty = true
    · rw [if_pos hemp]
    · rw [if_neg hemp]
      exact parentsGo_false_no_marker _ hnone

theorem c3_ancestors_skip_marker_lines_witness :
    getGitSpiceParentBranches (some "feat-b\nmain") = [] :=
  (c3_ancestors_skip_marker_lines "feat-b\nmain").2 (by decide)

/-- C4 counterexample: on the spec's example (trunk-first orientation:
`main`, `  feat-a ◀`, `    feat-b`) extraction does yield
`["main","feat-a","feat-b"]`, but the ancestor list the code returns is NOT
`["main"]` — the code keeps the names on lines after the marker line. -/
theorem c4_spec_example_counterexample :
    (stackLines "main\n  feat-a ◀\n    feat-b").filterMap extractBranchName =
      ["main", "feat-a", "feat-b"]
    ∧ getGitSpiceParentBranches (some "main\n  feat-a ◀\n    feat-b") ≠ ["main"] :=
  ⟨by decide, by decide⟩

/-- C4 amended: on that input the extracted names are
`["main","feat-a","feat-b"]` and the ancestor list is `["feat-b"]` — the
names on lines strictly after the marker line; `main`, on a line before the
marker, is excluded. (The code assumes the tool prints the trunk last.) -/
theorem c4_spec_example_actual :
    (stackLines "main\n  feat-a ◀\n    feat-b").filterMap extractBranchName =
      ["main", "feat-a", "feat-b"]
    ∧ getGitSpiceParentBranches (some "main\n  feat-a ◀\n    feat-b") = ["feat-b"] :=
  ⟨by decide, by decide⟩

/-- C9: the walk over the decorated output is a single structurally
recursive pass over the kept lines — it is total by construction (Lean
accepts `parentsGo` without any fuel), and the ancestor list it returns is
bounded by the number of input lines, for every output including malformed
ones. -/
theorem c9_walk_terminates_bounded (out : Option String) :
    (getGitSpiceParentBranches out).length ≤
      (match out with
      | none => 0
      | some o => (stackLines o).length) := by
  cases out with
  | none => simp [getGitSpiceParentBranches]
  | some o =>
    rw [getGitSpiceParentBranches]
    by_cases hemp : o.data.isEmpty = true
    · rw [if_pos hemp]
      simp
    · rw [if_neg hemp]
      exact parentsGo_length_le _ false

/-! ### Claim C5 — the Tree-Text Branch Extractor -/

theorem tryAnnot_spec (l r : List Char) (h : tryAnnot l = some r) :
    r <:+ l ∧ r.length + 3 ≤ l.length := by
  unfold tryAnnot at h
  split at h
  case _ r2 heq =>
    dsimp only [] at h
    split at h
    · exact absurd h (by simp)
    case _ hbody =>
      split at h
      case _ r3 hdrop =>
        have hr : r = r3 := by injection h with h'; exact h'.symm
        subst hr
        have hsuf1 : '(' :: r2 <:+ l := heq ▸ List.dropWhile_suffix wsChar
        have hsuf2 : ')' :: r <:+ r2 := hdrop ▸ List.drop_suffix ..
        have hchain : r <:+ l :=
          ((List.suffix_cons ')' r).trans hsuf2).trans
            ((List.suffix_cons '(' r2).trans hsuf1)
        refine ⟨hchain, ?_⟩
        have hlen1 : ('(' :: r2).length ≤ l.length := hsuf1.length_le
        have hlen2 : (')' :: r).length ≤ r2.length := hsuf2.length_le
        have hbody1 : 1 ≤ (r2.takeWhile (fun c => c ≠ ')')).length := by
          rcases hb : r2.takeWhile (fun c => c ≠ ')') with _ | ⟨x, xs⟩
          · rw [hb] at hbody; exact absurd rfl hbody
          · simp
        have hlen3 : (r2.drop (r2.takeWhile (fun c => c ≠ ')')).length).length =
            r2.length - (r2.takeWhile (fun c => c ≠ ')')).length := List.length_drop ..
        rw [hdrop] at hlen3
        have hlen4 : (r2.takeWhile (fun c => c ≠ ')')).length ≤ r2.length :=
          (List.takeWhile_sublist _).length_le
        simp only [List.length_cons] at hlen1 hlen2 hlen3
        omega
      · exact absurd h (by simp)
  · exact absurd h (by simp)

theorem tryPR_spec (l r : List Char) (h : tryPR l = some r) :
    r <:+ l ∧ r.length + 4 ≤ l.length := by
  unfold tryPR at h
  split at h
  case _ r2 heq =>
    dsimp only [] at h
    split at h
    · exact absurd h (by simp)
    case _ hds =>
      split at h
      case _ r3 hdrop =>
        have hr : r = r3 := by injection h with h'; exact h'.symm
        subst hr
        have hsuf1 : '(' :: '#' :: r2 <:+ l := heq ▸ List.dropWhile_suffix wsChar
        have hsuf2 : ')' :: r <:+ r2 := hdrop ▸ List.drop_suffix ..
        have hchain : r <:+ l :=
          ((List.suffix_cons ')' r).trans hsuf2).trans
            (((List.suffix_cons '#' r2).trans (List.suffix_cons '(' ('#' :: r2))).trans hsuf1)
        refine ⟨hchain, ?_⟩
        have hlen1 : ('(' :: '#' :: r2).length ≤ l.length := hsuf1.length_le
        have hlen2 : (')' :: r).length ≤ r2.length := hsuf2.length_le
        have hds1 : 1 ≤ (r2.takeWhile Char.isDigit).length := by
          rcases hb : r2.takeWhile Char.isDigit with _ | ⟨x, xs⟩
          · rw [hb] at hds; exact absurd rfl hds
          · simp
        have hlen3 : (r2.drop (r2.takeWhile Char.isDigit).length).length =
            r2.length - (r2.takeWhile Char.isDigit).length := List.length_drop ..
        rw [hdrop] at hlen3
        have hlen4 : (r2.takeWhile Char.isDigit).length ≤ r2.length :=
          (List.takeWhile_sublist _).length_le
        simp only [List.length_cons] at hlen1 hlen2 hlen3
        omega
      · exact absurd h (by simp)
  · exact absurd h (by simp)

theorem stripAnnotGo_fuel : ∀ (f1 : Nat) (l : List Char) (f2 : Nat),
    l.length ≤ f1 → l.length ≤ f2 → stripAnnotGo f1 l = stripAnnotGo f2 l := by
  intro f1
  induction f1 with
  | zero =>
    intro l f2 h1 _
    have hl : l = [] := List.eq_nil_of_length_eq_zero (Nat.le_zero.mp h1)
    subst hl
    cases f2 <;> rfl
  | succ n ih =>
    intro l f2 h1 h2
    cases l with
    | nil => cases f2 <;> rfl
    | cons c cs =>
      cases f2 with
      | zero => simp at h2
      | succ m =>
        simp only [List.length_cons] at h1 h2
        rw [stripAnnotGo, stripAnnotGo]
        cases htry : tryAnnot (c :: cs) with
        | some r =>
          have hspec := (tryAnnot_spec _ _ htry).2
          simp only [List.length_cons] at hspec
          exact ih r m (by omega) (by omega)
        | none =>
          rw [ih cs m (by omega) (by omega)]

theorem stripPRGo_fuel : ∀ (f1 : Nat) (l : List Char) (f2 : Nat),
    l.length ≤ f1 → l.length ≤ f2 → stripPRGo f1 l = stripPRGo f2 l := by
  intro f1
  induction f1 with
  | zero =>
    intro l f2 h1 _
    have hl : l = [] := List.eq_nil_of_length_eq_zero (Nat.le_zero.mp h1)
    subst hl
    cases f2 <;> rfl
  | succ n ih =>
    intro l f2 h1 h2
    cases l with
    | nil => cases f2 <;> rfl
    | cons c cs =>
      cases f2 with
      | zero => simp at h2
      | succ m =>
        simp only [List.length_cons] at h1 h2
        rw [stripPRGo, stripPRGo]
        cases htry : tryPR (c :: cs) with
        | some r =>
          have hspec := (tryPR_spec _ _ htry).2
          simp only [List.length_cons] at hspec
          exact ih r m (by omega) (by omega)
        | none =>
          rw [ih cs m (by omega) (by omega)]

theorem stripAnnots_cons_match (c : Char) (cs r : List Char)
    (h : tryAnnot (c :: cs) = some r) : stripAnnots (c :: cs) = stripAnnots r := by
  have hspec := (tryAnnot_spec _ _ h).2
  simp only [List.length_cons] at hspec
  rw [stripAnnots, stripAnnots, List.length_cons, stripAnnotGo, h]
  exact stripAnnotGo_fuel cs.length r r.length (by omega) le_rfl

theorem stripAnnots_cons_skip (c : Char) (cs : List Char)
    (h : tryAnnot (c :: cs) = none) : stripAnnots (c :: cs) = c :: stripAnnots cs := by
  rw [stripAnnots, stripAnnots, List.length_cons, stripAnnotGo, h]

theorem stripPRRefs_cons_match (c : Char) (cs r : List Char)
    (h : tryPR (c :: cs) = some r) : stripPRRefs (c :: cs) = stripPRRefs r := by
  have hspec := (tryPR_spec _ _ h).2
  simp only [List.length_cons] at hspec
  rw [stripPRRefs, stripPRRefs, List.length_cons, stripPRGo, h]
  exact stripPRGo_fuel cs.length r r.length (by omega) le_rfl

theorem stripPRRefs_cons_skip (c : Char) (cs : List Char)
    (h : tryPR (c :: cs) = none) : stripPRRefs (c :: cs) = c :: stripPRRefs cs := by
  rw [stripPRRefs, stripPRRefs, List.length_cons, stripPRGo, h]

theorem dropWhile_eq_drop_takeWhile (p : Char → Bool) : ∀ l : List Char,
    l.dropWhile p = l.drop (l.takeWhile p).length := by
  intro l
  induction l with
  | nil => rfl
  | cons a as ih =>
    rw [List.dropWhile_cons, List.takeWhile_cons]
    by_cases ha : p a = true
    · rw [if_pos ha, if_pos ha, List.length_cons, List.drop_succ_cons, ih]
    · rw [if_neg ha, if_neg ha]
      rfl

theorem stripAnnots_sublist_aux : ∀ (n : Nat) (l : List Char), l.length ≤ n →
    (stripAnnots l).Sublist l := by
  intro n
  induction n with
  | zero =>
    intro l h
    have hl : l = [] := List.eq_nil_of_length_eq_zero (Nat.le_zero.mp h)
    subst hl
    exact List.Sublist.refl _
  | succ n ih =>
    intro l h
    cases l with
    | nil => exact List.Sublist.refl _
    | cons c cs =>
      simp only [List.length_cons] at h
      cases htry : tryAnnot (c :: cs) with
      | some r =>
        rw [stripAnnots_cons_match c cs r htry]
        have hspec := tryAnnot_spec _ _ htry
        have hlen := hspec.2
        simp only [List.length_cons] at hlen
        exact (ih r (by omega)).trans hspec.1.sublist
      | none =>
        rw [stripAnnots_cons_skip c cs htry]
        exact (ih cs (by omega)).cons₂ c

theorem stripAnnots_sublist (l : List Char) : (stripAnnots l).Sublist l :=
  stripAnnots_sublist_aux l.length l le_rfl

theorem hasAnnotAt_cons (c : Char) (rest : List Char) :
    hasAnnotAt (c :: rest) =
      (c = '(' && !(rest.takeWhile (fun x => x ≠ ')')).isEmpty &&
        !(rest.drop (rest.takeWhile (fun x => x ≠ ')')).length).isEmpty) := rfl

theorem tryAnnot_paren (cs : List Char) :
    tryAnnot ('(' :: cs) =
      if (cs.takeWhile (fun c => c ≠ ')')).isEmpty then none
      else match cs.drop ((cs.takeWhile (fun c => c ≠ ')')).length) with
        | ')' :: r3 => some r3
        | _ => none := rfl

theorem tryAnnot_rparen (ds : List Char) : tryAnnot (')' :: ds) = none := rfl

/-- The central stripping property: after the `\s*\([^)]+\)` global replace,
no substring matching `\([^)]+\)` remains.  (A retained `(` is always
followed in the output either by no `)` at all or immediately by `)`.) -/
theorem hasAnnot_stripAnnots_aux : ∀ (n : Nat) (l : List Char), l.length ≤ n →
    hasAnnot (stripAnnots l) = false := by
  intro n
  induction n with
  | zero =>
    intro l h
    have hl : l = [] := List.eq_nil_of_length_eq_zero (Nat.le_zero.mp h)
    subst hl
    rfl
  | succ n ih =>
    intro l h
    cases l with
    | nil => rfl
    | cons c cs =>
      simp only [List.length_cons] at h
      cases htry : tryAnnot (c :: cs) with
      | some r =>
        rw [stripAnnots_cons_match c cs r htry]
        have hlen := (tryAnnot_spec _ _ htry).2
        simp only [List.length_cons] at hlen
        exact ih r (by omega)
      | none =>
        rw [stripAnnots_cons_skip c cs htry, hasAnnot, ih cs (by omega), Bool.or_false]
        by_cases hc : c = '('
        · subst hc
          rw [tryAnnot_paren] at htry
          by_cases hbody : ((cs.takeWhile (fun c => c ≠ ')')).isEmpty = true)
          · cases cs with
            | nil => decide
            | cons d ds =>
              have hd : d = ')' := by
                by_contra hne
                rw [List.takeWhile_cons, if_pos (by simpa using hne)] at hbody
                simp at hbody
              subst hd
              rw [stripAnnots_cons_skip _ _ (tryAnnot_rparen ds), hasAnnotAt_cons]
              simp [List.takeWhile_cons]
          · rw [if_neg hbody] at htry
            have hdrop : cs.drop ((cs.takeWhile (fun c => c ≠ ')')).length) =
                cs.dropWhile (fun c => c ≠ ')') :=
              (dropWhile_eq_drop_takeWhile _ cs).symm
            cases hrest : cs.dropWhile (fun c => c ≠ ')') with
            | cons e es =>
              have he : e = ')' := by
                have := dropWhile_head?_not _ cs e es hrest
                simpa using this
              subst he
              rw [hdrop, hrest] at htry
              simp at htry
            | nil =>
              have hnop : ∀ x ∈ cs, decide (x ≠ ')') = true := by
                intro x hx
                exact List.dropWhile_eq_nil_iff.mp hrest x hx
              have hnop' : ∀ x ∈ stripAnnots cs, decide (x ≠ ')') = true :=
                fun x hx => hnop x ((stripAnnots_sublist cs).subset hx)
              rw [hasAnnotAt_cons]
              have hTW : (stripAnnots cs).takeWhile (fun x => x ≠ ')') = stripAnnots cs :=
                List.takeWhile_eq_self_iff.mpr hnop'
              rw [hTW, List.drop_length]
              simp
        · rw [hasAnnotAt_cons]
          simp [hc]

theorem hasAnnot_stripAnnots (l : List Char) : hasAnnot (stripAnnots l) = false :=
  hasAnnot_stripAnnots_aux l.length l le_rfl

theorem takeWhile_append_stop (p : Char → Bool) : ∀ (l ext : List Char),
    l.dropWhile p ≠ [] →
    (l ++ ext).takeWhile p = l.takeWhile p ∧
      (l ++ ext).dropWhile p = l.dropWhile p ++ ext := by
  intro l
  induction l with
  | nil => intro ext h; exact absurd rfl h
  | cons a as ih =>
    intro ext h
    by_cases ha : p a = true
    · rw [List.dropWhile_cons, if_pos ha] at h
      obtain ⟨h1, h2⟩ := ih ext h
      constructor
      · rw [List.cons_append, List.takeWhile_cons, if_pos ha, h1,
          List.takeWhile_cons, if_pos ha]
      · rw [List.cons_append, List.dropWhile_cons, if_pos ha, h2,
          List.dropWhile_cons, if_pos ha]
    · constructor
      · rw [List.cons_append, List.takeWhile_cons, if_neg ha,
          List.takeWhile_cons, if_neg ha]
      · rw [List.cons_append, List.dropWhile_cons, if_neg ha,
          List.dropWhile_cons, if_neg ha, List.cons_append]

theorem hasAnnotAt_append (l ext : List Char) (h : hasAnnotAt l = true) :
    hasAnnotAt (l ++ ext) = true := by
  cases l with
  | nil => simp [hasAnnotAt] at h
  | cons c rest =>
    rw [hasAnnotAt_cons] at h
    simp only [Bool.and_eq_true] at h
    obtain ⟨⟨h1, h2⟩, h3⟩ := h
    have hdwne : rest.dropWhile (fun x => x ≠ ')') ≠ [] := by
      rw [dropWhile_eq_drop_takeWhile]
      intro hnil
      rw [hnil] at h3
      simp at h3
    have hstop := takeWhile_append_stop (fun x => x ≠ ')') rest ext hdwne
    rw [List.cons_append, hasAnnotAt_cons, ← dropWhile_eq_drop_takeWhile,
      hstop.1, hstop.2]
    simp only [Bool.and_eq_true]
    refine ⟨⟨h1, h2⟩, ?_⟩
    simp only [Bool.not_eq_true'] at h3 ⊢
    cases hx : List.dropWhile (fun x => x ≠ ')') rest ++ ext with
    | nil => exact absurd (List.append_eq_nil.mp hx).1 hdwne
    | cons z zs => rfl

theorem hasAnnot_append_right : ∀ (l ext : List Char), hasAnnot l = true →
    hasAnnot (l ++ ext) = true := by
  intro l
  induction l with
  | nil => intro ext h; simp [hasAnnot] at h
  | cons c cs ih =>
    intro ext h
    rw [hasAnnot] at h
    rw [List.cons_append, hasAnnot]
    rcases (by simpa using h : hasAnnotAt (c :: cs) = true ∨ hasAnnot cs = true) with h1 | h2
    · have := hasAnnotAt_append (c :: cs) ext h1
      rw [List.cons_append] at this
      simp [this]
    · simp [ih ext h2]

theorem hasAnnot_append_left : ∀ (a m : List Char), hasAnnot m = true →
    hasAnnot (a ++ m) = true := by
  intro a
  induction a with
  | nil => intro m h; simpa using h
  | cons x a' ih =>
    intro m h
    rw [List.cons_append, hasAnnot]
    simp [ih m h]

theorem hasAnnot_of_isInfix (m l : List Char) (hinf : m <:+: l)
    (h : hasAnnot m = true) : hasAnnot l = true := by
  obtain ⟨s, t, rfl⟩ := hinf
  have h1 := hasAnnot_append_right m t h
  have h2 := hasAnnot_append_left s (m ++ t) h1
  simpa [List.append_assoc] using h2

theorem trimChars_isInfix (cs : List Char) : trimChars cs <:+: cs := by
  unfold trimChars
  have hs : ((cs.dropWhile wsChar).reverse.dropWhile wsChar) <:+
      (cs.dropWhile wsChar).reverse := List.dropWhile_suffix wsChar
  have hp : ((cs.dropWhile wsChar).reverse.dropWhile wsChar).reverse <+:
      (cs.dropWhile wsChar).reverse.reverse := List.reverse_prefix.mpr hs
  rw [List.reverse_reverse] at hp
  exact hp.isInfix.trans (List.dropWhile_suffix wsChar).isInfix

theorem hasPRAt_imp_hasAnnotAt : ∀ l : List Char, hasPRAt l = true →
    hasAnnotAt l = true := by
  intro l h
  unfold hasPRAt at h
  split at h
  case _ r2 =>
    simp only [Bool.and_eq_true] at h
    obtain ⟨hd, hhead⟩ := h
    rw [hasAnnotAt_cons]
    simp only [Bool.and_eq_true]
    have hmem : ')' ∈ r2 := by
      have hh : (r2.drop ((r2.takeWhile Char.isDigit).length)).head? = some ')' := by
        simpa using hhead
      have hmem0 : ')' ∈ r2.drop ((r2.takeWhile Char.isDigit).length) := by
        cases hdd : r2.drop ((r2.takeWhile Char.isDigit).length) with
        | nil => rw [hdd] at hh; simp at hh
        | cons z zs =>
          rw [hdd] at hh
          simp only [List.head?_cons, Option.some.injEq] at hh
          subst hh
          exact List.mem_cons_self ..
      exact List.mem_of_mem_drop hmem0
    refine ⟨⟨by simp, ?_⟩, ?_⟩
    · rw [List.takeWhile_cons, if_pos (by decide)]
      simp
    · rw [List.takeWhile_cons, if_pos (by decide)]
      simp only [List.length_cons, List.drop_succ_cons]
      rw [← dropWhile_eq_drop_takeWhile]
      cases hdw : r2.dropWhile (fun x => x ≠ ')') with
      | nil =>
        have := List.dropWhile_eq_nil_iff.mp hdw _ hmem
        simp at this
      | cons z zs => simp
  · simp at h

theorem dropWhile_cons_self (p : Char → Bool) (c : Char) (l : List Char)
    (h : p c = false) : (c :: l).dropWhile p = c :: l := by
  rw [List.dropWhile_cons, if_neg (by simp [h])]

theorem dropWhile_of_forall_false (p : Char → Bool) (l : List Char)
    (h : ∀ c ∈ l, p c = false) : l.dropWhile p = l := by
  cases l with
  | nil => rfl
  | cons a as => exact dropWhile_cons_self p a as (h a (List.mem_cons_self ..))

theorem trimChars_clean (l : List Char) (h : ∀ c ∈ l, wsChar c = false) :
    trimChars l = l := by
  unfold trimChars
  rw [dropWhile_of_forall_false wsChar l h,
    dropWhile_of_forall_false wsChar l.reverse (fun c hc => h c (List.mem_reverse.mp hc)),
    List.reverse_reverse]

theorem stripMarker_marker_case (cs rest : List Char)
    (h : cs.reverse.dropWhile wsChar = '◀' :: rest) :
    stripMarker cs = (rest.dropWhile wsChar).reverse := by
  unfold stripMarker
  rw [h]
  rfl

theorem stripMarker_no_marker_case (cs : List Char) (d : Char) (rest : List Char)
    (h : cs.reverse.dropWhile wsChar = d :: rest) (hd : d ≠ '◀') :
    stripMarker cs = cs := by
  unfold stripMarker
  rw [h]
  split
  · next heq =>
    injection heq with h1 _
    exact absurd h1 hd
  · rfl

theorem stripMarker_strips (A : List Char) (d : Char) (t : List Char)
    (hA : A.reverse = d :: t) (hd : wsChar d = false) :
    stripMarker (A ++ [' ', '◀']) = A := by
  have hscr : (A ++ [' ', '◀']).reverse.dropWhile wsChar = '◀' :: (' ' :: A.reverse) := by
    rw [List.reverse_append]
    exact dropWhile_cons_self wsChar '◀' (' ' :: A.reverse) (by decide)
  rw [stripMarker_marker_case _ _ hscr, List.dropWhile_cons, if_pos (by decide),
    hA, dropWhile_cons_self wsChar d t hd, ← hA, List.reverse_reverse]

theorem stripMarker_id (A : List Char) (d : Char) (t : List Char)
    (hA : A.reverse = d :: t) (hd : wsChar d = false) (hm : d ≠ '◀') :
    stripMarker A = A := by
  refine stripMarker_no_marker_case A d t ?_ hm
  rw [hA]
  exact dropWhile_cons_self wsChar d t hd

theorem tryPR_none_clean (c : Char) (l : List Char) (hws : wsChar c = false)
    (hpar : c ≠ '(') : tryPR (c :: l) = none := by
  unfold tryPR
  rw [dropWhile_cons_self wsChar c l hws]
  split
  · next heq =>
    injection heq with h1 _
    exact absurd h1 hpar
  · rfl

theorem tryAnnot_none_clean (c : Char) (l : List Char) (hws : wsChar c = false)
    (hpar : c ≠ '(') : tryAnnot (c :: l) = none := by
  unfold tryAnnot
  rw [dropWhile_cons_self wsChar c l hws]
  split
  · next heq =>
    injection heq with h1 _
    exact absurd h1 hpar
  · rfl

theorem stripPRRefs_append_clean : ∀ (a b : List Char),
    (∀ c ∈ a, wsChar c = false ∧ c ≠ '(') →
    stripPRRefs (a ++ b) = a ++ stripPRRefs b := by
  intro a
  induction a with
  | nil => intro b _; rfl
  | cons c a' ih =>
    intro b h
    have hc := h c (List.mem_cons_self ..)
    rw [List.cons_append, stripPRRefs_cons_skip _ _ (tryPR_none_clean c _ hc.1 hc.2),
      ih b (fun x hx => h x (List.mem_cons_of_mem _ hx)), List.cons_append]

theorem stripAnnots_append_clean : ∀ (a b : List Char),
    (∀ c ∈ a, wsChar c = false ∧ c ≠ '(') →
    stripAnnots (a ++ b) = a ++ stripAnnots b := by
  intro a
  induction a with
  | nil => intro b _; rfl
  | cons c a' ih =>
    intro b h
    have hc := h c (List.mem_cons_self ..)
    rw [List.cons_append, stripAnnots_cons_skip _ _ (tryAnnot_none_clean c _ hc.1 hc.2),
      ih b (fun x hx => h x (List.mem_cons_of_mem _ hx)), List.cons_append]

theorem rev_append_rparen (name : String) (sfx : List Char) (s0 : List Char)
    (hs : sfx.reverse = ')' :: s0) :
    (name.data ++ sfx).reverse = ')' :: (s0 ++ name.data.reverse) := by
  rw [List.reverse_append, hs]
  rfl

theorem stripPR_sfx1 : stripPRRefs " (#123)".data = [] := by decide

theorem stripPR_sfx2 :
    stripPRRefs " (#123) (needs restack)".data = " (needs restack)".data := by decide

theorem stripPR_sfx3 :
    stripPRRefs " (needs restack)".data = " (needs restack)".data := by decide

theorem stripAnnot_sfx : stripAnnots " (needs restack)".data = [] := by decide

theorem data_empty : ("" : String).data = ([] : List Char) := rfl

theorem data_marker : (" ◀" : String).data = [' ', '◀'] := rfl

theorem data_sfx5 : (" (#123) ◀" : String).data = " (#123)".data ++ [' ', '◀'] := rfl

theorem data_sfx6 :
    (" (needs restack) ◀" : String).data = " (needs restack)".data ++ [' ', '◀'] := rfl

theorem data_sfx8 :
    (" (#123) (needs restack) ◀" : String).data =
      " (#123) (needs restack)".data ++ [' ', '◀'] := rfl

theorem extract_of_cleaned_eq (line name : String) (hne : name.data ≠ [])
    (h : trimChars (stripAnnots (stripPRRefs (stripMarker
      (line.data.dropWhile (fun c => wsChar c || treeGlyph c))))) = name.data) :
    extractBranchName line = some name := by
  simp only [extractBranchName]
  rw [h, if_neg (by simp [List.isEmpty_iff, hne])]

theorem hasPR_imp_hasAnnot : ∀ l : List Char, hasPR l = true →
    hasAnnot l = true := by
  intro l
  induction l with
  | nil => intro h; simp [hasPR] at h
  | cons c cs ih =>
    intro h
    rw [hasPR] at h
    rw [hasAnnot]
    rcases (by simpa using h : hasPRAt (c :: cs) = true ∨ hasPR cs = true) with h1 | h2
    · simp [hasPRAt_imp_hasAnnotAt _ h1]
    · simp [ih h2]

/-- C5 counterexample: `extractBranchName` strips only a LEADING glyph run
and a TRAILING marker, so an interior tree glyph survives into the result:
the claim that the result never contains a tree-drawing glyph is false. -/
theorem c5_no_residual_glyphs_counterexample :
    extractBranchName "a│b" = some "a│b"
    ∧ '│' ∈ "a│b".data ∧ treeGlyph '│' = true := by
  refine ⟨by decide, by decide, by decide⟩

/-- C5 amended: the extractor returns `none` or a non-empty string that
contains no parenthesized group `\([^)]+\)` (hence no PR reference
`\(#\d+\)`); leading glyph runs and trailing markers are removed, but a
glyph or marker elsewhere in the line may survive.  For a clean branch name
the result is `some name`, unchanged under any combination of the trailing
marker, PR-reference and status-annot decorations. -/
theorem c5_extractor_properties :
    (∀ line : String, extractBranchName line = none ∨
      ∃ b, extractBranchName line = some b ∧ b ≠ ""
        ∧ hasAnnot b.data = false ∧ hasPR b.data = false)
    ∧ (∀ name : String, name.data ≠ [] →
        (∀ c ∈ name.data, wsChar c = false ∧ treeGlyph c = false
          ∧ c ≠ '(' ∧ c ≠ ')' ∧ c ≠ '◀') →
        ∀ d ∈ (["", " ◀", " (#123)", " (needs restack)",
                " (#123) ◀", " (needs restack) ◀",
                " (#123) (needs restack)", " (#123) (needs restack) ◀"] : List String),
          extractBranchName (name ++ d) = some name) := by
  constructor
  · intro line
    simp only [extractBranchName]
    set S := stripAnnots (stripPRRefs (stripMarker
      (line.data.dropWhile (fun c => wsChar c || treeGlyph c)))) with hS
    by_cases hemp : (trimChars S).isEmpty = true
    · left
      rw [if_pos hemp]
    · right
      refine ⟨String.mk (trimChars S), by rw [if_neg hemp], ?_, ?_, ?_⟩
      · intro heq
        have hdata : trimChars S = [] := congrArg String.data heq
        rw [hdata] at hemp
        exact hemp rfl
      · show hasAnnot (trimChars S) = false
        have h1 : hasAnnot S = false := by rw [hS]; exact hasAnnot_stripAnnots _
        cases hxx : hasAnnot (trimChars S) with
        | false => rfl
        | true =>
          have h2 := hasAnnot_of_isInfix _ _ (trimChars_isInfix S) hxx
          rw [h1] at h2
          simp at h2
      · show hasPR (trimChars S) = false
        have h1 : hasAnnot S = false := by rw [hS]; exact hasAnnot_stripAnnots _
        cases hxx : hasPR (trimChars S) with
        | false => rfl
        | true =>
          have h2 := hasPR_imp_hasAnnot _ hxx
          have h3 := hasAnnot_of_isInfix _ _ (trimChars_isInfix S) h2
          rw [h1] at h3
          simp at h3
  · intro name hne hclean d hd
    obtain ⟨c0, rest0, hname⟩ := List.exists_cons_of_ne_nil hne
    have hrevne : name.data.reverse ≠ [] := by
      intro hrev0
      exact hne (by simpa using congrArg List.reverse hrev0)
    obtain ⟨dl, tl, hrev⟩ := List.exists_cons_of_ne_nil hrevne
    have hdl : dl ∈ name.data := List.mem_reverse.mp (by rw [hrev]; exact List.mem_cons_self ..)
    have hdlc := hclean dl hdl
    have hc0 := hclean c0 (by rw [hname]; exact List.mem_cons_self ..)
    have hstep1 : ∀ X : List Char,
        (name.data ++ X).dropWhile (fun c => wsChar c || treeGlyph c) = name.data ++ X := by
      intro X
      rw [hname, List.cons_append]
      exact dropWhile_cons_self _ c0 _ (by simp [hc0.1, hc0.2.1])
    have hcl2 : ∀ c ∈ name.data, wsChar c = false ∧ c ≠ '(' :=
      fun c hc => ⟨(hclean c hc).1, (hclean c hc).2.2.1⟩
    have htrim : trimChars name.data = name.data :=
      trimChars_clean _ (fun c hc => (hclean c hc).1)
    have hpr0 : stripPRRefs ([] : List Char) = [] := rfl
    have han0 : stripAnnots ([] : List Char) = [] := rfl
    have hpr_nil : stripPRRefs name.data = name.data := by
      have h := stripPRRefs_append_clean name.data [] hcl2
      rw [hpr0, List.append_nil] at h
      exact h
    have han_nil : stripAnnots name.data = name.data := by
      have h := stripAnnots_append_clean name.data [] hcl2
      rw [han0, List.append_nil] at h
      exact h
    have hmark_id0 : stripMarker name.data = name.data :=
      stripMarker_id name.data dl tl hrev hdlc.1 hdlc.2.2.2.2
    have hmark_strip0 : stripMarker (name.data ++ [' ', '◀']) = name.data :=
      stripMarker_strips name.data dl tl hrev hdlc.1
    have hmark_id3 : stripMarker (name.data ++ " (#123)".data) =
        name.data ++ " (#123)".data :=
      stripMarker_id _ ')' _ (rev_append_rparen name " (#123)".data _ rfl)
        (by decide) (by decide)
    have hmark_id4 : stripMarker (name.data ++ " (needs restack)".data) =
        name.data ++ " (needs restack)".data :=
      stripMarker_id _ ')' _ (rev_append_rparen name " (needs restack)".data _ rfl)
        (by decide) (by decide)
    have hmark_id7 : stripMarker (name.data ++ " (#123) (needs restack)".data) =
        name.data ++ " (#123) (needs restack)".data :=
      stripMarker_id _ ')' _ (rev_append_rparen name " (#123) (needs restack)".data _ rfl)
        (by decide) (by decide)
    have hmark_strip3 : stripMarker ((name.data ++ " (#123)".data) ++ [' ', '◀']) =
        name.data ++ " (#123)".data :=
      stripMarker_strips _ ')' _ (rev_append_rparen name " (#123)".data _ rfl) (by decide)
    have hmark_strip4 : stripMarker ((name.data ++ " (needs restack)".data) ++ [' ', '◀']) =
        name.data ++ " (needs restack)".data :=
      stripMarker_strips _ ')' _ (rev_append_rparen name " (needs restack)".data _ rfl)
        (by decide)
    have hmark_strip7 : stripMarker
        ((name.data ++ " (#123) (needs restack)".data) ++ [' ', '◀']) =
        name.data ++ " (#123) (needs restack)".data :=
      stripMarker_strips _ ')' _ (rev_append_rparen name " (#123) (needs restack)".data _ rfl)
        (by decide)
    have hpr3 : stripPRRefs (name.data ++ " (#123)".data) = name.data := by
      rw [stripPRRefs_append_clean _ _ hcl2, stripPR_sfx1, List.append_nil]
    have hpr4 : stripPRRefs (name.data ++ " (needs restack)".data) =
        name.data ++ " (needs restack)".data := by
      rw [stripPRRefs_append_clean _ _ hcl2, stripPR_sfx3]
    have hpr7 : stripPRRefs (name.data ++ " (#123) (needs restack)".data) =
        name.data ++ " (needs restack)".data := by
      rw [stripPRRefs_append_clean _ _ hcl2, stripPR_sfx2]
    have han4 : stripAnnots (name.data ++ " (needs restack)".data) = name.data := by
      rw [stripAnnots_append_clean _ _ hcl2, stripAnnot_sfx, List.append_nil]
    simp only [List.mem_cons, List.not_mem_nil, or_false] at hd
    rcases hd with rfl | rfl | rfl | rfl | rfl | rfl | rfl | rfl
    · refine extract_of_cleaned_eq _ _ hne ?_
      rw [String.data_append, data_empty,
        hstep1 [], List.append_nil, hmark_id0, hpr_nil, han_nil, htrim]
    · refine extract_of_cleaned_eq _ _ hne ?_
      rw [String.data_append, data_marker,
        hstep1 [' ', '◀'], hmark_strip0, hpr_nil, han_nil, htrim]
    · refine extract_of_cleaned_eq _ _ hne ?_
      rw [String.data_append, hstep1 " (#123)".data, hmark_id3, hpr3, han_nil, htrim]
    · refine extract_of_cleaned_eq _ _ hne ?_
      rw [String.data_append, hstep1 " (needs restack)".data, hmark_id4, hpr4, han4, htrim]
    · refine extract_of_cleaned_eq _ _ hne ?_
      rw [String.data_append, data_sfx5,
        hstep1 (" (#123)".data ++ [' ', '◀']), ← List.append_assoc, hmark_strip3,
        hpr3, han_nil, htrim]
    · refine extract_of_cleaned_eq _ _ hne ?_
      rw [String.data_append, data_sfx6,
        hstep1 (" (needs restack)".data ++ [' ', '◀']), ← List.append_assoc, hmark_strip4,
        hpr4, han4, htrim]
    · refine extract_of_cleaned_eq _ _ hne ?_
      rw [String.data_append, hstep1 " (#123) (needs restack)".data, hmark_id7, hpr7,
        han4, htrim]
    · refine extract_of_cleaned_eq _ _ hne ?_
      rw [String.data_append, data_sfx8,
        hstep1 (" (#123) (needs restack)".data ++ [' ', '◀']), ← List.append_assoc,
        hmark_strip7, hpr7, han4, htrim]

theorem c5_extractor_properties_witness :
    (extractBranchName "├─ feat" = none ∨
      ∃ b, extractBranchName "├─ feat" = some b ∧ b ≠ ""
        ∧ hasAnnot b.data = false ∧ hasPR b.data = false)
    ∧ extractBranchName ("feat-a" ++ " (#123) (needs restack) ◀") = some "feat-a" :=
  ⟨c5_extractor_properties.1 "├─ feat",
    c5_extractor_properties.2 "feat-a" (by decide) (by decide)
      " (#123) (needs restack) ◀" (by decide)⟩

/-! ### Claim C6 — the Fallback Branch Lister -/

/-- C6: with no usable `gs ls` output (command failed, or empty combined
output) the branch listing is exactly the flat normalized local-branch list;
that list is non-empty whenever some line normalizes to a non-empty name
(at least one local branch exists); and when the branch listing itself
fails, the result is exactly `["main"]`. -/
theorem c6_fallback_branch_listing (braw : Option String) (s : String) :
    getGitSpiceBranches none braw = getRegularBranches braw
    ∧ getGitSpiceBranches (some "") braw = getRegularBranches braw
    ∧ ((∃ cs ∈ splitNl s.data, (stripQuotes (trimChars cs)).isEmpty = false) →
        getRegularBranches (some s) ≠ [])
    ∧ getRegularBranches none = ["main"] := by
  refine ⟨rfl, rfl, ?_, rfl⟩
  rintro ⟨cs, hmem, hne⟩
  rw [getRegularBranches]
  unfold normalizeQuoted
  intro hemp
  rw [List.map_eq_nil_iff] at hemp
  have hin : stripQuotes (trimChars cs) ∈
      (((splitNl s.data).map (fun cs => stripQuotes (trimChars cs))).filter
        (fun cs => !cs.isEmpty)) := by
    rw [List.mem_filter]
    exact ⟨List.mem_map_of_mem _ hmem, by simp [hne]⟩
  rw [hemp] at hin
  simp at hin

theorem c6_fallback_branch_listing_witness :
    getGitSpiceBranches none (some "dev\nmain\n") = getRegularBranches (some "dev\nmain\n")
    ∧ getRegularBranches (some "main\n") ≠ []
    ∧ getRegularBranches none = ["main"] :=
  ⟨(c6_fallback_branch_listing (some "dev\nmain\n") "main\n").1,
    (c6_fallback_branch_listing (some "dev\nmain\n") "main\n").2.2.1
      ⟨"main".data, by decide, by decide⟩,
    (c6_fallback_branch_listing (some "dev\nmain\n") "main\n").2.2.2⟩

/-! ### Claim C7 — the branch-picker candidate list -/

/-- C7 counterexample: with `main` as the selected base reference and the
filter query `main`, the candidate list produced by the filtering path
contains `main` itself — the base reference is NOT excluded from its own
candidate list (the code has no exclusion; re-selecting the base is merely a
no-op at accept time). -/
theorem c7_base_excluded_counterexample :
    "main" ∈ buildItems (some "main") (some "main\nmainline\n") none none := by
  decide

/-- C7 amended: in the unfiltered presentation every stack-derived ancestor
name appears prefixed with the distinguishing marker, and every other item
comes from the recent-branch listing minus its first entry and minus the
stack names; with a non-empty filter query the items are exactly the
filtered listing (no exclusion of the base reference anywhere). -/
theorem c7_candidate_presentation (gsOut recentRaw : Option String) :
    (∀ b ∈ (if isInGitSpiceStack gsOut then getGitSpiceParentBranches gsOut else []),
      ("🥞 " ++ b) ∈ buildUnfiltered gsOut recentRaw)
    ∧ (∀ it ∈ buildUnfiltered gsOut recentRaw,
        (∃ b ∈ (if isInGitSpiceStack gsOut then getGitSpiceParentBranches gsOut else []),
          it = "🥞 " ++ b)
        ∨ (it ∈ (getRecentBranches recentRaw 11).drop 1
            ∧ it ∉ (if isInGitSpiceStack gsOut then getGitSpiceParentBranches gsOut else [])))
    ∧ (∀ (q : String) (fraw : Option String), q.data.isEmpty = false →
        buildItems (some q) fraw gsOut recentRaw = filterBranches fraw 10) := by
  refine ⟨?_, ?_, ?_⟩
  · intro b hb
    simp only [buildUnfiltered]
    exact List.mem_append_left _ (List.mem_map_of_mem _ hb)
  · intro it hit
    simp only [buildUnfiltered] at hit
    rcases List.mem_append.mp hit with h | h
    · left
      obtain ⟨b, hb, rfl⟩ := List.mem_map.mp h
      exact ⟨b, hb, rfl⟩
    · right
      have h1 := List.mem_of_mem_take h
      obtain ⟨h2, h3⟩ := List.mem_filter.mp h1
      exact ⟨h2, of_decide_eq_true h3⟩
  · intro q fraw hq
    rw [buildItems, if_pos (by simp [hq])]

theorem c7_candidate_presentation_witness :
    ("🥞 " ++ "main") ∈ buildUnfiltered (some "┏━□ feat ◀\nmain") (some "feat\nmain\ndev\n")
    ∧ buildItems (some "x") (some "y\n") (some "┏━□ feat ◀\nmain") (some "feat\nmain\ndev\n") =
        filterBranches (some "y\n") 10 :=
  ⟨(c7_candidate_presentation (some "┏━□ feat ◀\nmain") (some "feat\nmain\ndev\n")).1 "main"
      (by decide),
    (c7_candidate_presentation (some "┏━□ feat ◀\nmain") (some "feat\nmain\ndev\n")).2.2 "x"
      (some "y\n") (by decide)⟩

/-! ### Claim C8 — dispatch/join discipline of the aggregation -/

/-- C8 counterexample: in the event trace of `getAllChangesItems` the
committed-diff query is joined (awaited) before the staged, unstaged and
untracked queries are even dispatched, so it is false that all four queries
are dispatched before any result is awaited. -/
theorem c8_fanout_counterexample : ¬ allDispatchedBeforeAnyJoin allChangesTrace := by
  decide

/-- C8 amended: the three uncommitted queries are all dispatched before any
of the three is awaited (the `Promise.all` fan-out/fan-in), while the
committed-diff query is dispatched and fully awaited before any of the
other three queries is dispatched. -/
theorem c8_actual_concurrency :
    allDispatchedBeforeAnyJoin uncommittedTrace
    ∧ (∀ i < allChangesTrace.length, ∀ j < allChangesTrace.length,
        allChangesTrace.getD i (.dispatch .committed) = .join .committed →
        ((allChangesTrace.getD j (.dispatch .committed)).isDispatch = true ∧
          allChangesTrace.getD j (.dispatch .committed) ≠ .dispatch .committed) →
        i < j) := by
  exact ⟨by decide, by decide⟩

